import Mathlib

/-!
Verification development for the deep-research orchestration pipeline
(`src/services/geminiService.ts` and the history handling in `src/App.tsx`).

The service's pure state and control flow are embedded shallowly:
remote calls (model generation, web search, chapter writing) are modelled
as oracle functions supplied through an `Env` record, while the state the
code actually maintains (the citation registry `globalSources` /
`uniqueSourceMap`, the report sections, the cancellation check points, the
`searchCount` counter) is carried explicitly.
-/

namespace DeepResearch

/-- A web source: `{ title, uri }` from `src/types.ts`. -/
structure Source where
  title : String
  uri : String
deriving DecidableEq, Repr

/-- The citation registry state of `executeResearch`:
`globalSources` (the ordered global list) and `uniqueSourceMap`
(uri → 1-based index), the latter modelled as an assoc list in insertion
order, matching a JS `Map`. -/
structure RegState where
  globalSources : List Source
  uniqueSourceMap : List (String × Nat)
deriving DecidableEq, Repr

def emptyReg : RegState := ⟨[], []⟩

/-- First-match assoc lookup; JS `Map.get` on a map whose keys are unique. -/
def lookupUri : List (String × Nat) → String → Option Nat
  | [], _ => none
  | (k, v) :: rest, u => if k = u then some v else lookupUri rest u

/-- One registration step, mirroring the body of the source loop
(geminiService.ts lines 305–312): a seen uri returns its stored index and
leaves the state unchanged; a new uri is appended to `globalSources` and
recorded in the map with index `globalSources.length` (1-based). -/
def registerSource (src : Source) (st : RegState) : Nat × RegState :=
  match lookupUri st.uniqueSourceMap src.uri with
  | some i => (i, st)
  | none =>
      let gs := st.globalSources ++ [src]
      let i := gs.length
      (i, ⟨gs, st.uniqueSourceMap ++ [(src.uri, i)]⟩)

/-- Register a whole sequence of sources in order, starting from a state. -/
def registerAllFrom (st : RegState) : List Source → RegState
  | [] => st
  | s :: rest => registerAllFrom (registerSource s st).2 rest

def registerAll (l : List Source) : RegState := registerAllFrom emptyReg l

/-- First-seen deduplication of a list, keeping the first occurrence of
each element, given the set `seen` of already-seen elements. -/
def firstSeenFrom (seen : List String) : List String → List String
  | [] => []
  | u :: us => if u ∈ seen then firstSeenFrom seen us
               else u :: firstSeenFrom (u :: seen) us

def firstSeen (l : List String) : List String := firstSeenFrom [] l

/-- The map the registry would hold for a given ordered source list,
shifted by `n`: the k-th source's uri bound to index `n + k + 1`. -/
def mapOfFrom (n : Nat) : List Source → List (String × Nat)
  | [] => []
  | s :: rest => (s.uri, n + 1) :: mapOfFrom (n + 1) rest

def mapOf (gs : List Source) : List (String × Nat) := mapOfFrom 0 gs

/-- Registry well-formedness: the assoc map is exactly the enumeration of
the global list, and the uris of the global list are pairwise distinct. -/
def RegWF (st : RegState) : Prop :=
  st.uniqueSourceMap = mapOf st.globalSources ∧
  (st.globalSources.map Source.uri).Nodup

/-! ## JSON values and the outline generator (`generateResearchPlan`) -/

/-- A JSON value, as produced by `JSON.parse` in the browser. -/
inductive Json where
  | null : Json
  | bool : Bool → Json
  | num : Int → Json
  | str : String → Json
  | arr : List Json → Json
  | obj : List (String × Json) → Json

/-- Whether a JSON value is `null` (property access on it would throw). -/
def Json.isNull : Json → Bool
  | .null => true
  | _ => false

/-- JS truthiness of a JSON value (`!v` is `false` exactly when truthy). -/
def jsonTruthy : Json → Bool
  | .null => false
  | .bool b => b
  | .num n => n != 0
  | .str s => s != ""
  | .arr _ => true
  | .obj _ => true

/-- JS property access `v.k`: defined only on objects; on every non-null
non-object value it is `undefined` (modelled as `none`); the `null` case
is handled separately by the caller because `null.k` throws. -/
def getField : Json → String → Option Json
  | .obj fields, k => fields.lookup k
  | _, _ => none

/-- Outcome of `generateResearchPlan`, projected to the fields the caller
reads: `title` (`none` models JS `undefined`), `chapters`, `usage`. -/
structure PlanOut where
  title : Option Json
  chapters : List Json
  usage : Nat

/-- The catch-all fallback of `generateResearchPlan` (line 240): used when
`generateText` throws, the response is not valid JSON, or the parsed value
is `null` (so that `json.chapters` throws). -/
def planCatchFallback (q : String) : PlanOut :=
  ⟨some (.str q), [.str "研究背景", .str "核心分析", .str "结论"], 0⟩

/-- The malformed-shape fallback chapter list (line 233): used when the
parsed JSON lacks a `chapters` field, or has a falsy or non-array one. -/
def planShapeFallbackChapters : List Json :=
  [.str "研究背景", .str "核心技术分析", .str "市场现状", .str "挑战与机遇", .str "结论与展望"]

/-- The shape check `!json.chapters || !Array.isArray(json.chapters)`
and the two result shapes of the `try` block (lines 230–237): a `chapters`
field that is an array (arrays are truthy, `[]` included) passes and the
parsed object is returned spread with the usage; anything else (missing,
falsy, or non-array `chapters`) yields the 5-item generic outline with
`title: json.title || config.query`. -/
def planFromJson (q : String) (json : Json) (usage : Nat) : PlanOut :=
  match getField json "chapters" with
  | some (Json.arr cs) => ⟨getField json "title", cs, usage⟩
  | _ =>
      ⟨some (match getField json "title" with
             | some t => if jsonTruthy t then t else .str q
             | none => .str q),
       planShapeFallbackChapters, usage⟩

/-- Model of `generateResearchPlan` (lines 225–241), as a function of the research
query and the combined outcome of `generateText` + code-fence strip +
`JSON.parse` (an oracle: `.error` when the model call threw or the text
was not valid JSON; `.ok (json, usage)` otherwise). A parsed `null` lands
in the catch fallback because `json.chapters` throws a TypeError on it. -/
def generateResearchPlan (q : String) (resp : Except Unit (Json × Nat)) : PlanOut :=
  match resp with
  | .error _ => planCatchFallback q
  | .ok (json, usage) =>
      if json.isNull then planCatchFallback q
      else planFromJson q json usage

/-! ## Settings and the search strategy (`search`, lines 149–196) -/

/-- Run settings (`src/types.ts` + the `tavilyApiKey` field the service
and settings form use); `tavilyApiKey = ""` models an unset key (falsy). -/
structure Settings where
  provider : String
  apiKey : String
  baseUrl : String
  model : String
  tavilyApiKey : String
deriving DecidableEq, Repr

/-- The init step `initAI` (lines 14–30) constructs the hosted client exactly when the
provider is `google` (given a non-empty api key); this is the state of
`this.googleAI` that the `search` dispatch reads. -/
def googleAIReady (s : Settings) : Bool := s.provider == "google"

inductive Strategy
  | tavily
  | native
  | fallback
deriving DecidableEq, Repr

/-- The branch `search` takes, in the source's order of conditions
(lines 153, 158, 178). -/
def strategyOf (s : Settings) : Strategy :=
  if s.provider ≠ "google" ∧ s.tavilyApiKey ≠ "" then .tavily
  else if s.provider = "google" ∧ googleAIReady s = true then .native
  else .fallback

structure SearchRes where
  summary : String
  sources : List Source
deriving DecidableEq, Repr

def emptySearchRes : SearchRes := ⟨"", []⟩

structure TavilyItem where
  title : String
  url : String
  content : String
deriving DecidableEq, Repr

/-- Outcome of one Tavily HTTP call: non-2xx response, thrown network
error, or a parsed body (`answer` with `""` for a missing/empty answer,
and the `results` array with `[]` for a missing one — both collapse to
the same output under the source's `||` fallbacks). -/
inductive TavilyOut
  | httpErr
  | netErr
  | ok (answer : String) (results : List TavilyItem)
deriving DecidableEq, Repr

/-- The `searchTavily` result mapping (lines 110–144); its `searchCount`
increment (line 111) is accounted by the caller model. -/
def searchTavilyRes : TavilyOut → SearchRes
  | .httpErr => emptySearchRes
  | .netErr => emptySearchRes
  | .ok answer results =>
      ⟨if answer ≠ "" then answer
       else String.intercalate "\n\n" (results.map TavilyItem.content),
       results.map (fun r => ⟨r.title, r.url⟩)⟩

/-- A grounding chunk: `c.web?.uri` and `c.web?.title`. -/
structure Chunk where
  webUri : Option String
  webTitle : Option String
deriving DecidableEq, Repr

inductive NativeOut
  | err
  | ok (text : String) (chunks : List Chunk)
deriving DecidableEq, Repr

def truthyOpt : Option String → Bool
  | none => false
  | some s => s != ""

/-- The provider-native grounded search branch (lines 158–174). -/
def searchNativeRes : NativeOut → SearchRes
  | .err => emptySearchRes
  | .ok text chunks =>
      ⟨text,
       (chunks.filter (fun c => truthyOpt c.webUri && truthyOpt c.webTitle)).map
         (fun c => ⟨c.webTitle.getD "", c.webUri.getD ""⟩)⟩

/-- The synthetic source of the LLM-knowledge fallback (line 190). -/
def fallbackSource : Source := ⟨"AI 内部知识库 (OpenAI/Fallback)", "#ai-internal"⟩

/-- The fallback branch (lines 178–195): a successful generation returns
its text with the single synthetic source; a thrown call degrades to the
empty result. -/
def searchFallbackRes : Except Unit String → SearchRes
  | .error _ => emptySearchRes
  | .ok text => ⟨text, [fallbackSource]⟩

/-! ## The research orchestrator (`executeResearch`, lines 245–381) -/

/-- Environment of remote-call outcomes for one run, indexed by chapter
position (and query position within the chapter): the per-chapter query
generation (its own JSON fallback included, so it never throws), the
three search backends, and the chapter writer (which can throw). -/
structure Env where
  queries : Nat → List String × Nat
  tavily : Nat → Nat → TavilyOut
  native : Nat → Nat → NativeOut
  fallbackGen : Nat → Nat → Except Unit String
  write : Nat → Except String (String × Nat)

/-- One `this.search(q, model)` call during chapter `i`, query `j`:
dispatch on the configured strategy (line 153/158/178). The Bool records
whether the Tavily path ran, i.e. whether `searchCount` was incremented. -/
def searchModel (s : Settings) (env : Env) (i j : Nat) : SearchRes × Bool :=
  match strategyOf s with
  | .tavily => (searchTavilyRes (env.tavily i j), true)
  | .native => (searchNativeRes (env.native i j), false)
  | .fallback => (searchFallbackRes (env.fallbackGen i j), false)

/-- Observable events of a run: a search call, the citation indices bound
to one query's result, and a chapter-writer invocation with its findings
and prompt-source labels. -/
inductive Ev
  | searchCall (chapter q : Nat)
  | found (indices : List Nat)
  | write (chapter : String) (findings : List String) (promptSources : List String)
deriving DecidableEq, Repr

/-- The mutable state of `executeResearch`: the citation registry, the
accumulated report sections, the findings cache, the number of
cancellation checks performed so far, the search counter, the token
counter, and the event trace. -/
structure RunState where
  reg : RegState
  sections : List String
  findingsCache : List String
  checks : Nat
  searchCount : Nat
  totalTokens : Nat
  trace : List Ev
deriving DecidableEq, Repr

def initState : RunState := ⟨emptyReg, [], [], 0, 0, 0, []⟩

/-- The fixed error message of `checkCancelled` (line 37). -/
def cancelMsg : String := "用户取消了研究。"

/-- A step either succeeds or unwinds with an error, carrying the state
reached at the point the error was raised. -/
inductive StepRes (α : Type)
  | ok (a : α)
  | err (st : RunState) (msg : String)

/-- A cooperative-cancellation check (lines 36–38). The flag timeline is
modelled by the ordinal `t` of the first check that observes it set
(`cancel()` is asynchronous, so any `t` can occur); `none` is a run in
which `cancel()` is never called. -/
def doCheck (cancelT : Option Nat) (st : RunState) : StepRes RunState :=
  match cancelT with
  | some t =>
      if t ≤ st.checks then .err st cancelMsg
      else .ok { st with checks := st.checks + 1 }
  | none => .ok { st with checks := st.checks + 1 }

def citeTag (i : Nat) : String := "[" ++ toString i ++ "]"

/-- The `(来源ID: ...)` suffix bound to a finding (lines 329–331). -/
def sourceTagsOf (idxs : List Nat) : String :=
  if idxs = [] then ""
  else " (来源ID: " ++ String.intercalate ", " (idxs.map citeTag) ++ ")"

def findingText (summary : String) (idxs : List Nat) : String :=
  "资料: \"" ++ summary ++ "\"" ++ sourceTagsOf idxs

/-- Insertion into `chapterPromptSources` — a JS `Set` of strings in insertion
order. -/
def setAdd (l : List String) (x : String) : List String :=
  if x ∈ l then l else l ++ [x]

def sourceLabel (i : Nat) (s : Source) : String := citeTag i ++ " " ++ s.title

/-- The registration loop over one search result's sources
(lines 304–315): returns the updated registry, the `currentQueryIndices`
list, and the updated chapter prompt-source set. -/
def registerFold : List Source → RegState → List String →
    RegState × List Nat × List String
  | [], reg, prompt => (reg, [], prompt)
  | s :: rest, reg, prompt =>
      let step := registerSource s reg
      let next := registerFold rest step.2 (setAdd prompt (sourceLabel step.1 s))
      (next.1, step.1 :: next.2.1, next.2.2)

/-- The body of the per-query loop (lines 288–334): cancellation check,
search, source registration, and conditional finding append. -/
def processQuery (s : Settings) (env : Env) (cancelT : Option Nat) (i j : Nat)
    (st : RunState) (findings prompt : List String) :
    StepRes (RunState × List String × List String) :=
  match doCheck cancelT st with
  | .err st1 msg => .err st1 msg
  | .ok st1 =>
      let res := searchModel s env i j
      let st2 := { st1 with
        searchCount := st1.searchCount + (if res.2 then 1 else 0),
        trace := st1.trace ++ [Ev.searchCall i j] }
      let rf := registerFold res.1.sources st2.reg prompt
      let st3 := { st2 with reg := rf.1, trace := st2.trace ++ [Ev.found rf.2.1] }
      let findings2 :=
        if res.1.summary ≠ "" then findings ++ [findingText res.1.summary rf.2.1]
        else findings
      .ok (st3, findings2, rf.2.2)

/-- The per-query loop over a chapter's generated queries. -/
def processQueries (s : Settings) (env : Env) (cancelT : Option Nat) (i : Nat) :
    List String → Nat → RunState → List String → List String →
    StepRes (RunState × List String × List String)
  | [], _, st, findings, prompt => .ok (st, findings, prompt)
  | _q :: rest, j, st, findings, prompt =>
      match processQuery s env cancelT i j st findings prompt with
      | .err st1 msg => .err st1 msg
      | .ok (st1, findings1, prompt1) =>
          processQueries s env cancelT i rest (j + 1) st1 findings1 prompt1

/-- One chapter-loop iteration (lines 269–359): entry cancellation check,
query generation, the per-query loop, the findings-cache push, and the
chapter-writer call appending the drafted section. -/
def processChapter (s : Settings) (env : Env) (cancelT : Option Nat)
    (i : Nat) (chapter : String) (st : RunState) : StepRes RunState :=
  match doCheck cancelT st with
  | .err st1 msg => .err st1 msg
  | .ok st1 =>
      let q := env.queries i
      let st2 := { st1 with totalTokens := st1.totalTokens + q.2 }
      match processQueries s env cancelT i q.1 0 st2 [] [] with
      | .err st3 msg => .err st3 msg
      | .ok (st3, findings, prompt) =>
          let st4 := { st3 with
            findingsCache :=
              st3.findingsCache ++ [(String.intercalate "\n" findings).take 1000],
            trace := st3.trace ++ [.write chapter findings prompt] }
          match env.write i with
          | .error e => .err st4 e
          | .ok cw =>
              .ok { st4 with totalTokens := st4.totalTokens + cw.2,
                             sections := st4.sections ++ [cw.1] }

/-- The chapter loop, chapter index threaded from `i0`. -/
def runChapters (s : Settings) (env : Env) (cancelT : Option Nat) :
    List String → Nat → RunState → RunState × Option String
  | [], _, st => (st, none)
  | c :: rest, i, st =>
      match processChapter s env cancelT i c st with
      | .err st1 msg => (st1, some msg)
      | .ok st1 => runChapters s env cancelT rest (i + 1) st1

/-- JS `\s` (the regex class used by `replace(/\s+/g, '')`). -/
def jsWhitespace (c : Char) : Bool :=
  let n := c.toNat
  n == 0x9 || n == 0xa || n == 0xb || n == 0xc || n == 0xd || n == 0x20 ||
  n == 0xa0 || n == 0x1680 || (0x2000 ≤ n && n ≤ 0x200a) || n == 0x2028 ||
  n == 0x2029 || n == 0x202f || n == 0x205f || n == 0x3000 || n == 0xfeff

/-- The count `fullReport.replace(/\s+/g, '').length` (line 363). -/
def countNonWs (s : String) : Nat :=
  (s.toList.filter (fun c => !jsWhitespace c)).length

/-- Final assembly (line 362). -/
def assembleReport (title : String) (sections : List String) : String :=
  "# " ++ title ++ "\n\n" ++ String.intercalate "\n\n" sections

/-- The `completedResult` payload of the completion event
(lines 371–378), minus the UI-added id/timestamp/logs. -/
structure ResultPayload where
  title : String
  report : String
  sources : List Source
  totalSearchQueries : Nat
  totalTokens : Nat
  wordCount : Nat
deriving DecidableEq, Repr

/-- The configuration error raised by `initAI` (line 17). -/
def configErrMsg : String := "请先在设置中配置 API Key"

/-- Model of `executeResearch` (lines 245–381): init, chapter loop, final
compilation. Returns the final mutable state together with either the
completion payload or the message of the error that unwound the
generator. -/
def executeResearch (s : Settings) (env : Env) (title : String)
    (chapters : List String) (cancelT : Option Nat) :
    RunState × Except String ResultPayload :=
  if s.apiKey = "" then (initState, .error configErrMsg)
  else
    match runChapters s env cancelT chapters 0 initState with
    | (st, some e) => (st, .error e)
    | (st, none) =>
        let fullReport := assembleReport title st.sections
        (st, .ok ⟨title, fullReport, st.reg.globalSources, st.searchCount,
                  st.totalTokens, countNonWs fullReport⟩)

/-- The chapter titles passed to the chapter writer, in call order. -/
def writesOf : List Ev → List String
  | [] => []
  | .write c _ _ :: rest => c :: writesOf rest
  | _ :: rest => writesOf rest

/-- The chapter-writer invocations with their arguments, in call order. -/
def writeEventsOf : List Ev → List (String × List String × List String)
  | [] => []
  | .write c f p :: rest => (c, f, p) :: writeEventsOf rest
  | _ :: rest => writeEventsOf rest

/-- Number of search calls in a trace. -/
def searchCallCount : List Ev → Nat
  | [] => 0
  | .searchCall _ _ :: rest => searchCallCount rest + 1
  | _ :: rest => searchCallCount rest

/-- The citation-index lists bound to the findings, in order. -/
def foundIndicesOf : List Ev → List (List Nat)
  | [] => []
  | .found l :: rest => l :: foundIndicesOf rest
  | _ :: rest => foundIndicesOf rest


/-! ## Local history (`src/App.tsx`, `saveToHistory` / the load effect) -/

/-- The result object `App.tsx` builds on completion (lines 211–216) and
stores in history: the spread `completedResult` plus `id`, `timestamp` and
the collected `logs`. Log entries carry arbitrary serializable payloads
(`details: any`), so they are modelled as JSON values; JS numbers are
modelled as `Int`. -/
structure SavedResult where
  id : String
  timestamp : Int
  title : String
  report : String
  sources : List Source
  totalSearchQueries : Int
  totalTokens : Int
  wordCount : Int
  logs : List Json

/-- The save step `saveToHistory` (lines 114–118): prepend most-recent-first, cap at
50 entries. -/
def saveToHistory (r : SavedResult) (history : List SavedResult) : List SavedResult :=
  (r :: history).take 50

def encodeSource (s : Source) : Json :=
  .obj [("title", .str s.title), ("uri", .str s.uri)]

def decodeSource : Json → Option Source
  | .obj [("title", .str t), ("uri", .str u)] => some ⟨t, u⟩
  | _ => none

def decodeSources : List Json → Option (List Source)
  | [] => some []
  | j :: rest =>
      match decodeSource j, decodeSources rest with
      | some s, some ss => some (s :: ss)
      | _, _ => none

/-- Serialization of one stored result, at the JSON-value level (the
browser guarantees `JSON.parse ∘ JSON.stringify` is the identity on
acyclic JSON values, so string printing/lexing is not re-modelled). -/
def encodeResult (r : SavedResult) : Json :=
  .obj [("id", .str r.id), ("timestamp", .num r.timestamp),
        ("title", .str r.title), ("report", .str r.report),
        ("sources", .arr (r.sources.map encodeSource)),
        ("totalSearchQueries", .num r.totalSearchQueries),
        ("totalTokens", .num r.totalTokens),
        ("wordCount", .num r.wordCount),
        ("logs", .arr r.logs)]

/-- Reading one stored result back from its parsed JSON shape
(`JSON.parse` preserves the key order `JSON.stringify` wrote). -/
def decodeResult : Json → Option SavedResult
  | .obj [("id", .str id), ("timestamp", .num ts),
          ("title", .str title), ("report", .str report),
          ("sources", .arr ss),
          ("totalSearchQueries", .num tq),
          ("totalTokens", .num tt),
          ("wordCount", .num wc),
          ("logs", .arr logs)] =>
      (decodeSources ss).map (fun sources =>
        ⟨id, ts, title, report, sources, tq, tt, wc, logs⟩)
  | _ => none

def encodeHistory (h : List SavedResult) : Json := .arr (h.map encodeResult)

def decodeResults : List Json → Option (List SavedResult)
  | [] => some []
  | j :: rest =>
      match decodeResult j, decodeResults rest with
      | some r, some rs => some (r :: rs)
      | _, _ => none

/-- The history load effect (`App.tsx` lines 83–92): parse the stored
list. -/
def decodeHistory : Json → Option (List SavedResult)
  | .arr items => decodeResults items
  | _ => none

/-! ## Concrete run fixtures used by the witness instantiations -/

/-- An OpenAI-compatible run with no Tavily key: the fallback search
strategy. -/
def wSettings : Settings :=
  ⟨"openai", "k", "https://api.openai.com/v1", "gpt-4o", ""⟩

/-- A deterministic environment: one query per chapter, fallback text
`"text"`, every chapter written as `"content"`. -/
def wEnv : Env :=
  ⟨fun _ => (["q1"], 2), fun _ _ => .httpErr, fun _ _ => .err,
   fun _ _ => .ok "text", fun _ => .ok ("content", 3)⟩

/-- The completion payload of the one-chapter fixture run. -/
def wResult : ResultPayload :=
  ⟨"T", "# T\n\ncontent", [fallbackSource], 0, 5, 9⟩

/-- A variant environment whose every search degrades to the empty
result (the fallback generation call throws). -/
def wEnvEmpty : Env :=
  ⟨fun _ => (["q1"], 2), fun _ _ => .httpErr, fun _ _ => .err,
   fun _ _ => .error (), fun _ => .ok ("content", 3)⟩

/-- The registry holding exactly the fallback synthetic source. -/
def regOneFallback : RegState :=
  ⟨[fallbackSource], [("#ai-internal", 1)]⟩

/-! ## Registry lemmas and claim C1 -/

theorem regWF_empty : RegWF emptyReg := by
  constructor <;> simp [emptyReg, mapOf, mapOfFrom]

theorem mapOfFrom_append (n : Nat) (gs : List Source) (s : Source) :
    mapOfFrom n (gs ++ [s]) = mapOfFrom n gs ++ [(s.uri, n + gs.length + 1)] := by
  induction gs generalizing n with
  | nil => simp [mapOfFrom]
  | cons hd tl ih =>
      show (hd.uri, n + 1) :: mapOfFrom (n + 1) (tl ++ [s])
          = (hd.uri, n + 1) :: (mapOfFrom (n + 1) tl ++ [(s.uri, n + (tl.length + 1) + 1)])
      rw [ih]
      have harith : n + 1 + tl.length + 1 = n + (tl.length + 1) + 1 := by omega
      rw [harith]

theorem lookupUri_mapOfFrom_eq_none_iff (gs : List Source) (n : Nat) (u : String) :
    lookupUri (mapOfFrom n gs) u = none ↔ u ∉ gs.map Source.uri := by
  induction gs generalizing n with
  | nil => simp [mapOfFrom, lookupUri]
  | cons s rest ih =>
      simp only [mapOfFrom, lookupUri, List.map_cons, List.mem_cons]
      by_cases h : s.uri = u
      · simp [h]
      · rw [if_neg h, ih]
        constructor
        · intro hn hc
          rcases hc with hc | hc
          · exact h hc.symm
          · exact hn hc
        · intro hn hc
          exact hn (Or.inr hc)

theorem lookupUri_mapOfFrom_get (gs : List Source) (n k : Nat) (hk : k < gs.length)
    (hnd : (gs.map Source.uri).Nodup) :
    lookupUri (mapOfFrom n gs) (gs.get ⟨k, hk⟩).uri = some (n + k + 1) := by
  induction gs generalizing n k with
  | nil => simp at hk
  | cons s rest ih =>
      simp only [List.map_cons, List.nodup_cons] at hnd
      cases k with
      | zero => simp [mapOfFrom, lookupUri]
      | succ m =>
          have hm : m < rest.length := Nat.lt_of_succ_lt_succ hk
          have hget : (s :: rest).get ⟨m + 1, hk⟩ = rest.get ⟨m, hm⟩ := rfl
          have hne : ¬ (s.uri = (rest.get ⟨m, hm⟩).uri) := by
            intro he
            exact hnd.1 (he ▸ List.mem_map_of_mem Source.uri (rest.get_mem m hm))
          rw [hget]
          simp only [mapOfFrom, lookupUri]
          rw [if_neg hne, ih (n + 1) m hm hnd.2]
          congr 1
          omega

/-- Idempotence on uris: re-registering a source whose uri is already in
the map returns that stored index and leaves the state untouched. -/
theorem registerSource_seen (s : Source) (st : RegState) (i : Nat)
    (h : lookupUri st.uniqueSourceMap s.uri = some i) :
    registerSource s st = (i, st) := by
  simp [registerSource, h]

theorem registerSource_new (s : Source) (st : RegState)
    (h : lookupUri st.uniqueSourceMap s.uri = none) :
    registerSource s st =
      (st.globalSources.length + 1,
       ⟨st.globalSources ++ [s], st.uniqueSourceMap ++ [(s.uri, st.globalSources.length + 1)]⟩) := by
  simp [registerSource, h]

/-- Registration preserves well-formedness. -/
theorem regWF_registerSource (s : Source) (st : RegState) (h : RegWF st) :
    RegWF (registerSource s st).2 := by
  obtain ⟨hmap, hnd⟩ := h
  cases hl : lookupUri st.uniqueSourceMap s.uri with
  | some i =>
      have hst : (registerSource s st).2 = st := by
        rw [registerSource_seen s st i hl]
      rw [hst]
      exact ⟨hmap, hnd⟩
  | none =>
      rw [registerSource_new s st hl]
      constructor
      · show st.uniqueSourceMap ++ [(s.uri, st.globalSources.length + 1)]
            = mapOf (st.globalSources ++ [s])
        rw [hmap]
        simp only [mapOf]
        rw [mapOfFrom_append]
        simp
      · show ((st.globalSources ++ [s]).map Source.uri).Nodup
        rw [hmap, mapOf, lookupUri_mapOfFrom_eq_none_iff] at hl
        simp only [List.map_append, List.map_cons, List.map_nil]
        exact List.Nodup.append hnd (List.nodup_singleton _)
          (by simpa [List.disjoint_singleton] using hl)

theorem firstSeenFrom_congr (seen₁ seen₂ : List String)
    (h : ∀ x, x ∈ seen₁ ↔ x ∈ seen₂) (l : List String) :
    firstSeenFrom seen₁ l = firstSeenFrom seen₂ l := by
  induction l generalizing seen₁ seen₂ with
  | nil => rfl
  | cons u us ih =>
      by_cases hu : u ∈ seen₁
      · simp [firstSeenFrom, hu, (h u).mp hu, ih seen₁ seen₂ h]
      · have hu₂ : u ∉ seen₂ := fun hc => hu ((h u).mpr hc)
        simp only [firstSeenFrom, if_neg hu, if_neg hu₂]
        refine congrArg _ (ih _ _ ?_)
        intro x
        simp [h x]

/-- Running the registration loop extends the global uri list by exactly
the first-seen-deduplicated new uris, in order. -/
theorem registerAllFrom_uris (l : List Source) (st : RegState) (h : RegWF st) :
    RegWF (registerAllFrom st l) ∧
    (registerAllFrom st l).globalSources.map Source.uri
      = st.globalSources.map Source.uri
        ++ firstSeenFrom (st.globalSources.map Source.uri) (l.map Source.uri) := by
  induction l generalizing st with
  | nil => exact ⟨h, by simp [registerAllFrom, firstSeenFrom]⟩
  | cons s rest ih =>
      by_cases hs : s.uri ∈ st.globalSources.map Source.uri
      · have hsome : (lookupUri st.uniqueSourceMap s.uri).isSome := by
          rw [h.1, mapOf]
          cases hl : lookupUri (mapOfFrom 0 st.globalSources) s.uri with
          | some i => rfl
          | none =>
              rw [lookupUri_mapOfFrom_eq_none_iff] at hl
              exact absurd hs hl
        obtain ⟨i, hi⟩ := Option.isSome_iff_exists.mp hsome
        have hstep : (registerSource s st).2 = st := by
          rw [registerSource_seen s st i hi]
        rw [registerAllFrom, hstep]
        obtain ⟨hwf, heq⟩ := ih st h
        refine ⟨hwf, ?_⟩
        rw [heq]
        simp only [List.map_cons, firstSeenFrom, if_pos hs]
      · have hl : lookupUri st.uniqueSourceMap s.uri = none := by
          rw [h.1, mapOf, lookupUri_mapOfFrom_eq_none_iff]
          exact hs
        have hwf' : RegWF (registerSource s st).2 := regWF_registerSource s st h
        rw [registerAllFrom]
        obtain ⟨hwf, heq⟩ := ih (registerSource s st).2 hwf'
        refine ⟨hwf, ?_⟩
        rw [heq]
        have hgs : (registerSource s st).2.globalSources = st.globalSources ++ [s] := by
          rw [registerSource_new s st hl]
        rw [hgs]
        simp only [List.map_append, List.map_cons, List.map_nil, List.append_assoc,
          List.singleton_append, firstSeenFrom, if_neg hs]
        refine congrArg _ (congrArg _ ?_)
        exact firstSeenFrom_congr _ _ (by intro x; simp [or_comm]) _

/-- Claim C1: over any sequence of registered sources, the citation
registry assigns indices 1..N densely in strict first-seen order of
distinct uris; re-registering an already-seen uri returns the stored index
and changes nothing; and the emitted `globalSources` list has exactly one
entry per distinct uri (its uris are the first-seen dedup of the input
uris, without repetition), in index order. -/
theorem citation_registry_dense_firstseen_idempotent (l : List Source) :
    ((registerAll l).globalSources.map Source.uri = firstSeen (l.map Source.uri)) ∧
    ((registerAll l).globalSources.map Source.uri).Nodup ∧
    (∀ k (hk : k < (registerAll l).globalSources.length),
        lookupUri (registerAll l).uniqueSourceMap
          ((registerAll l).globalSources.get ⟨k, hk⟩).uri = some (k + 1)) ∧
    (∀ (s : Source) (i : Nat),
        lookupUri (registerAll l).uniqueSourceMap s.uri = some i →
        registerSource s (registerAll l) = (i, registerAll l)) := by
  obtain ⟨hwf, heq⟩ := registerAllFrom_uris l emptyReg regWF_empty
  refine ⟨?_, hwf.2, ?_, ?_⟩
  · simpa [registerAll, emptyReg, firstSeen] using heq
  · intro k hk
    have h := lookupUri_mapOfFrom_get (registerAll l).globalSources 0 k hk hwf.2
    have hm : (registerAll l).uniqueSourceMap = mapOf (registerAll l).globalSources := hwf.1
    rw [hm, mapOf]
    simpa using h
  · intro s i hi
    exact registerSource_seen s (registerAll l) i hi

/-- Concrete instantiation of C1: registering `u1, u2, u1` yields the
global list `[u1, u2]`, and re-registering `u1` returns index 1 with the
state unchanged. -/
theorem citation_registry_dense_firstseen_idempotent_w :
    (registerAll [⟨"A", "u1"⟩, ⟨"B", "u2"⟩, ⟨"A2", "u1"⟩]).globalSources.map Source.uri
        = firstSeen ["u1", "u2", "u1"] ∧
    registerSource ⟨"A2", "u1"⟩ (registerAll [⟨"A", "u1"⟩, ⟨"B", "u2"⟩, ⟨"A2", "u1"⟩])
        = (1, registerAll [⟨"A", "u1"⟩, ⟨"B", "u2"⟩, ⟨"A2", "u1"⟩]) := by
  constructor
  · exact (citation_registry_dense_firstseen_idempotent
      [⟨"A", "u1"⟩, ⟨"B", "u2"⟩, ⟨"A2", "u1"⟩]).1
  · exact (citation_registry_dense_firstseen_idempotent
      [⟨"A", "u1"⟩, ⟨"B", "u2"⟩, ⟨"A2", "u1"⟩]).2.2.2 ⟨"A2", "u1"⟩ 1 (by decide)

/-! ## Outline-generator lemmas and claim C4 -/

theorem Json.isNull_eq_false (j : Json) (h : j ≠ Json.null) : j.isNull = false := by
  cases j <;> first | rfl | exact absurd rfl h

theorem planFromJson_not_arr (q : String) (json : Json) (usage : Nat)
    (h : ∀ cs, getField json "chapters" ≠ some (Json.arr cs)) :
    (planFromJson q json usage).chapters = planShapeFallbackChapters := by
  unfold planFromJson
  split
  · next cs heq => exact absurd heq (h cs)
  · rfl

theorem planFromJson_arr (q : String) (json : Json) (usage : Nat) (cs : List Json)
    (h : getField json "chapters" = some (Json.arr cs)) :
    planFromJson q json usage = ⟨getField json "title", cs, usage⟩ := by
  unfold planFromJson
  split
  · next cs2 heq =>
      rw [h] at heq
      cases heq
      rfl
  · next hne => exact absurd h (hne cs)

/-- Claim C4 (counterexample to the claim as stated): a response that is
valid JSON but lacks a `chapters` array does NOT produce the 3-item
fallback — it produces the 5-item generic outline. -/
theorem generateResearchPlan_missing_chapters_cex :
    (generateResearchPlan "q" (.ok (.obj [("title", Json.str "T")], 7))).chapters.length = 5 ∧
    (generateResearchPlan "q" (.ok (.obj [("title", Json.str "T")], 7))).chapters.length ≠ 3 := by
  constructor
  · rfl
  · decide

/-- Claim C4 (amended): `generateResearchPlan` never fails the run; an
invalid-JSON (or thrown) response yields the fixed 3-item catch fallback,
a parsed `null` likewise, a valid JSON value without a `chapters` array
yields the fixed 5-item generic outline, and a well-formed response (any
`chapters` array) has its parsed chapters returned unchanged. -/
theorem generateResearchPlan_fallback (q : String) (resp : Except Unit (Json × Nat)) :
    (∀ e, resp = .error e →
        generateResearchPlan q resp = planCatchFallback q) ∧
    (∀ u, resp = .ok (Json.null, u) →
        generateResearchPlan q resp = planCatchFallback q) ∧
    (∀ j u, resp = .ok (j, u) → j ≠ Json.null →
        (∀ cs, getField j "chapters" ≠ some (Json.arr cs)) →
        (generateResearchPlan q resp).chapters = planShapeFallbackChapters) ∧
    (∀ j u cs, resp = .ok (j, u) → getField j "chapters" = some (Json.arr cs) →
        generateResearchPlan q resp = ⟨getField j "title", cs, u⟩) := by
  refine ⟨?_, ?_, ?_, ?_⟩
  · rintro e rfl
    rfl
  · rintro u rfl
    rfl
  · rintro j u rfl hnull hch
    have hb : j.isNull = false := Json.isNull_eq_false j hnull
    simp only [generateResearchPlan, hb, Bool.false_eq_true, if_false]
    exact planFromJson_not_arr q j u hch
  · rintro j u cs rfl hch
    have hnull : j ≠ Json.null := by
      intro he
      rw [he] at hch
      exact Option.noConfusion hch
    have hb : j.isNull = false := Json.isNull_eq_false j hnull
    simp only [generateResearchPlan, hb, Bool.false_eq_true, if_false]
    exact planFromJson_arr q j u cs hch

/-- Concrete instantiation of the amended C4: an invalid-JSON response,
a missing-`chapters` response, and a well-formed response. -/
theorem generateResearchPlan_fallback_w :
    generateResearchPlan "q" (.error ()) = planCatchFallback "q" ∧
    (generateResearchPlan "q" (.ok (.obj [("title", Json.str "T")], 7))).chapters
        = planShapeFallbackChapters ∧
    generateResearchPlan "q" (.ok (.obj [("chapters", Json.arr [Json.str "A"])], 3))
        = ⟨none, [Json.str "A"], 3⟩ := by
  refine ⟨?_, ?_, ?_⟩
  · exact (generateResearchPlan_fallback "q" (.error ())).1 () rfl
  · refine (generateResearchPlan_fallback "q" _).2.2.1 (.obj [("title", Json.str "T")]) 7
      rfl (fun h => Json.noConfusion h) ?_
    intro cs h
    have hg : getField (Json.obj [("title", Json.str "T")]) "chapters" = none := rfl
    rw [hg] at h
    exact Option.noConfusion h
  · have h := (generateResearchPlan_fallback "q"
      (.ok (.obj [("chapters", Json.arr [Json.str "A"])], 3))).2.2.2
      (.obj [("chapters", Json.arr [Json.str "A"])]) 3 [Json.str "A"] rfl rfl
    have hg : getField (Json.obj [("chapters", Json.arr [Json.str "A"])]) "title" = none := rfl
    rw [hg] at h
    exact h

/-! ## Run lemmas -/

theorem writesOf_append (l₁ l₂ : List Ev) :
    writesOf (l₁ ++ l₂) = writesOf l₁ ++ writesOf l₂ := by
  induction l₁ with
  | nil => rfl
  | cons e rest ih => cases e <;> simp only [List.cons_append, List.append_eq, writesOf, ih, List.nil_append]

theorem writeEventsOf_append (l₁ l₂ : List Ev) :
    writeEventsOf (l₁ ++ l₂) = writeEventsOf l₁ ++ writeEventsOf l₂ := by
  induction l₁ with
  | nil => rfl
  | cons e rest ih => cases e <;> simp only [List.cons_append, List.append_eq, writeEventsOf, ih, List.nil_append]

theorem searchCallCount_append (l₁ l₂ : List Ev) :
    searchCallCount (l₁ ++ l₂) = searchCallCount l₁ + searchCallCount l₂ := by
  induction l₁ with
  | nil => simp [searchCallCount]
  | cons e rest ih =>
      cases e
      all_goals simp only [List.cons_append, List.append_eq, searchCallCount, ih]
      all_goals omega

theorem foundIndicesOf_append (l₁ l₂ : List Ev) :
    foundIndicesOf (l₁ ++ l₂) = foundIndicesOf l₁ ++ foundIndicesOf l₂ := by
  induction l₁ with
  | nil => rfl
  | cons e rest ih => cases e <;> simp only [List.cons_append, List.append_eq, foundIndicesOf, ih, List.nil_append]

theorem writesOf_eq_map_fst (l : List Ev) :
    writesOf l = (writeEventsOf l).map (fun e => e.1) := by
  induction l with
  | nil => rfl
  | cons e rest ih => cases e <;> simp only [writesOf, writeEventsOf, List.map_cons, ih]

/-- With no cancellation, one query step always succeeds, performs exactly
one check, and touches neither the sections nor the write events. -/
theorem processQuery_none_ok (s : Settings) (env : Env) (i j : Nat)
    (st : RunState) (f p : List String) :
    ∃ st' f' p', processQuery s env none i j st f p = .ok (st', f', p') ∧
      st'.checks = st.checks + 1 ∧
      st'.sections = st.sections ∧
      st'.findingsCache = st.findingsCache ∧
      writesOf st'.trace = writesOf st.trace ∧
      writeEventsOf st'.trace = writeEventsOf st.trace := by
  refine ⟨_, _, _, rfl, rfl, rfl, rfl, ?_, ?_⟩
  · simp only [writesOf_append, writesOf, List.append_nil]
  · simp only [writeEventsOf_append, writeEventsOf, List.append_nil]

/-- With no cancellation, a chapter's query loop always succeeds,
performing one check per query. -/
theorem processQueries_none_ok (s : Settings) (env : Env) (i : Nat) :
    ∀ (qs : List String) (j : Nat) (st : RunState) (f p : List String),
    ∃ st' f' p', processQueries s env none i qs j st f p = .ok (st', f', p') ∧
      st'.checks = st.checks + qs.length ∧
      st'.sections = st.sections ∧
      st'.findingsCache = st.findingsCache ∧
      writesOf st'.trace = writesOf st.trace ∧
      writeEventsOf st'.trace = writeEventsOf st.trace := by
  intro qs
  induction qs with
  | nil =>
      intro j st f p
      exact ⟨st, f, p, rfl, by simp, rfl, rfl, rfl, rfl⟩
  | cons q rest ih =>
      intro j st f p
      obtain ⟨st1, f1, p1, heq, hc, hs, hf, hwr, hwe⟩ := processQuery_none_ok s env i j st f p
      obtain ⟨st2, f2, p2, heq2, hc2, hs2, hf2, hwr2, hwe2⟩ := ih (j + 1) st1 f1 p1
      refine ⟨st2, f2, p2, ?_, ?_, ?_, ?_, ?_, ?_⟩
      · show (match processQuery s env none i j st f p with
              | .err st1 msg => .err st1 msg
              | .ok (st1, findings1, prompt1) =>
                  processQueries s env none i rest (j + 1) st1 findings1 prompt1)
            = StepRes.ok (st2, f2, p2)
        rw [heq]
        exact heq2
      · rw [hc2, hc]
        simp [List.length_cons]
        omega
      · rw [hs2, hs]
      · rw [hf2, hf]
      · rw [hwr2, hwr]
      · rw [hwe2, hwe]

/-- A no-cancel chapter with a successful write: appends the drafted
section, records exactly one writer invocation (for this chapter's
title), and performs `1 + |queries|` checks. -/
theorem processChapter_none_ok (s : Settings) (env : Env) (i : Nat) (c : String)
    (st : RunState) (cw : String × Nat) (hw : env.write i = .ok cw) :
    ∃ st' fnd prm, processChapter s env none i c st = .ok st' ∧
      st'.sections = st.sections ++ [cw.1] ∧
      writesOf st'.trace = writesOf st.trace ++ [c] ∧
      writeEventsOf st'.trace = writeEventsOf st.trace ++ [(c, fnd, prm)] ∧
      st'.checks = st.checks + 1 + (env.queries i).1.length := by
  obtain ⟨st3, fnd, prm, heq, hc, hs, hf, hwr, hwe⟩ :=
    processQueries_none_ok s env i (env.queries i).1 0
      { st with totalTokens := st.totalTokens + (env.queries i).2,
                checks := st.checks + 1 } [] []
  refine ⟨{ st3 with
      findingsCache := st3.findingsCache ++ [(String.intercalate "\n" fnd).take 1000],
      trace := st3.trace ++ [Ev.write c fnd prm],
      totalTokens := st3.totalTokens + cw.2,
      sections := st3.sections ++ [cw.1] }, fnd, prm, ?_, ?_, ?_, ?_, ?_⟩
  · unfold processChapter
    rw [show doCheck none st = .ok { st with checks := st.checks + 1 } from rfl]
    dsimp only
    rw [heq]
    dsimp only
    rw [hw]
  · simp only [RunState.sections]
    rw [hs]
  · simp only [RunState.trace, writesOf_append, writesOf]
    rw [hwr]
  · simp only [RunState.trace, writeEventsOf_append, writeEventsOf]
    rw [hwe]
  · simp only [RunState.checks]
    rw [hc]

/-- A no-cancel chapter whose write throws: the error unwinds after all
of the chapter's checks were performed. -/
theorem processChapter_none_err (s : Settings) (env : Env) (i : Nat) (c : String)
    (st : RunState) (e : String) (hw : env.write i = .error e) :
    ∃ st', processChapter s env none i c st = .err st' e ∧
      st'.checks = st.checks + 1 + (env.queries i).1.length := by
  obtain ⟨st3, fnd, prm, heq, hc, hs, hf, hwr, hwe⟩ :=
    processQueries_none_ok s env i (env.queries i).1 0
      { st with totalTokens := st.totalTokens + (env.queries i).2,
                checks := st.checks + 1 } [] []
  refine ⟨{ st3 with
      findingsCache := st3.findingsCache ++ [(String.intercalate "\n" fnd).take 1000],
      trace := st3.trace ++ [Ev.write c fnd prm] }, ?_, ?_⟩
  · unfold processChapter
    rw [show doCheck none st = .ok { st with checks := st.checks + 1 } from rfl]
    dsimp only
    rw [heq]
    dsimp only
    rw [hw]
  · simp only [RunState.checks]
    rw [hc]

/-- Whatever a no-cancel chapter's outcome, its resulting state has
performed exactly this chapter's `1 + |queries|` checks. -/
theorem processChapter_none_cases (s : Settings) (env : Env) (i : Nat) (c : String)
    (st : RunState) :
    (∃ st', processChapter s env none i c st = .ok st' ∧
        st'.checks = st.checks + 1 + (env.queries i).1.length) ∨
    (∃ st' msg, processChapter s env none i c st = .err st' msg ∧
        st'.checks = st.checks + 1 + (env.queries i).1.length) := by
  cases hw : env.write i with
  | ok cw =>
      obtain ⟨st', _, _, heq, _, _, _, hchk⟩ := processChapter_none_ok s env i c st cw hw
      exact Or.inl ⟨st', heq, hchk⟩
  | error e =>
      obtain ⟨st', heq, hchk⟩ := processChapter_none_err s env i c st e hw
      exact Or.inr ⟨st', e, heq, hchk⟩

theorem runChapters_cons_ok (s : Settings) (env : Env) (ct : Option Nat)
    (c : String) (rest : List String) (i0 : Nat) (st st1 : RunState)
    (h : processChapter s env ct i0 c st = .ok st1) :
    runChapters s env ct (c :: rest) i0 st
      = runChapters s env ct rest (i0 + 1) st1 := by
  have hstep : runChapters s env ct (c :: rest) i0 st
      = (match processChapter s env ct i0 c st with
         | .err st2 msg => (st2, some msg)
         | .ok st2 => runChapters s env ct rest (i0 + 1) st2) := rfl
  rw [hstep, h]

theorem runChapters_cons_err (s : Settings) (env : Env) (ct : Option Nat)
    (c : String) (rest : List String) (i0 : Nat) (st st1 : RunState) (msg : String)
    (h : processChapter s env ct i0 c st = .err st1 msg) :
    runChapters s env ct (c :: rest) i0 st = (st1, some msg) := by
  unfold runChapters
  rw [h]

/-- The checks counter never decreases along a no-cancel run. -/
theorem runChapters_none_checks_ge (s : Settings) (env : Env) :
    ∀ (chs : List String) (i0 : Nat) (st : RunState),
    st.checks ≤ (runChapters s env none chs i0 st).1.checks := by
  intro chs
  induction chs with
  | nil => intro i0 st; exact Nat.le_refl _
  | cons c rest ih =>
      intro i0 st
      rcases processChapter_none_cases s env i0 c st with ⟨st1, heq, hchk⟩ | ⟨st1, msg, heq, hchk⟩
      · have h2 := ih (i0 + 1) st1
        rw [runChapters_cons_ok s env none c rest i0 st st1 heq]
        omega
      · rw [runChapters_cons_err s env none c rest i0 st st1 msg heq]
        dsimp only
        omega

theorem doCheck_some_eq (t : Nat) (st : RunState) (h : st.checks < t) :
    doCheck (some t) st = doCheck none st := by
  unfold doCheck
  dsimp only
  rw [if_neg (Nat.not_le.mpr h)]

/-- A cancellation time not yet reached leaves a query step unchanged. -/
theorem processQuery_some_eq (t : Nat) (s : Settings) (env : Env) (i j : Nat)
    (st : RunState) (f p : List String) (h : st.checks < t) :
    processQuery s env (some t) i j st f p = processQuery s env none i j st f p := by
  unfold processQuery
  rw [doCheck_some_eq t st h]

theorem processQueries_some_eq (t : Nat) (s : Settings) (env : Env) (i : Nat) :
    ∀ (qs : List String) (j : Nat) (st : RunState) (f p : List String),
    st.checks + qs.length ≤ t →
    processQueries s env (some t) i qs j st f p
      = processQueries s env none i qs j st f p := by
  intro qs
  induction qs with
  | nil => intro j st f p _; rfl
  | cons q rest ih =>
      intro j st f p h
      have h1 : st.checks < t := by
        simp only [List.length_cons] at h
        omega
      obtain ⟨st1, f1, p1, heq, hc, _, _, _, _⟩ := processQuery_none_ok s env i j st f p
      unfold processQueries
      rw [processQuery_some_eq t s env i j st f p h1, heq]
      dsimp only
      refine ih (j + 1) st1 f1 p1 ?_
      simp only [List.length_cons] at h
      omega

/-- A cancellation time at or past the end of a chapter's checks leaves
the whole chapter step unchanged. -/
theorem processChapter_some_eq (t : Nat) (s : Settings) (env : Env) (i : Nat)
    (c : String) (st : RunState)
    (h : st.checks + 1 + (env.queries i).1.length ≤ t) :
    processChapter s env (some t) i c st = processChapter s env none i c st := by
  unfold processChapter
  rw [doCheck_some_eq t st (by omega)]
  rw [show doCheck none st = .ok { st with checks := st.checks + 1 } from rfl]
  dsimp only
  rw [processQueries_some_eq t s env i (env.queries i).1 0
      { st with totalTokens := st.totalTokens + (env.queries i).2,
                checks := st.checks + 1 } [] [] (by dsimp only; omega)]

/-- A cancellation time at or past the total number of checks of a
no-cancel run reproduces that run unchanged. -/
theorem runChapters_some_eq (t : Nat) (s : Settings) (env : Env) :
    ∀ (chs : List String) (i0 : Nat) (st : RunState),
    (runChapters s env none chs i0 st).1.checks ≤ t →
    runChapters s env (some t) chs i0 st = runChapters s env none chs i0 st := by
  intro chs
  induction chs with
  | nil => intro i0 st _; rfl
  | cons c rest ih =>
      intro i0 st hfin
      rcases processChapter_none_cases s env i0 c st with ⟨st1, heq, hchk⟩ | ⟨st1, msg, heq, hchk⟩
      · have hrest := runChapters_none_checks_ge s env rest (i0 + 1) st1
        rw [runChapters_cons_ok s env none c rest i0 st st1 heq] at hfin
        have hstep : st.checks + 1 + (env.queries i0).1.length ≤ t := by omega
        have hpc : processChapter s env (some t) i0 c st = .ok st1 := by
          rw [processChapter_some_eq t s env i0 c st hstep]
          exact heq
        rw [runChapters_cons_ok s env (some t) c rest i0 st st1 hpc,
            runChapters_cons_ok s env none c rest i0 st st1 heq]
        exact ih (i0 + 1) st1 hfin
      · rw [runChapters_cons_err s env none c rest i0 st st1 msg heq] at hfin
        have hfin2 : st1.checks ≤ t := hfin
        have hstep : st.checks + 1 + (env.queries i0).1.length ≤ t := by omega
        have hpc : processChapter s env (some t) i0 c st = .err st1 msg := by
          rw [processChapter_some_eq t s env i0 c st hstep]
          exact heq
        rw [runChapters_cons_err s env (some t) c rest i0 st st1 msg hpc,
            runChapters_cons_err s env none c rest i0 st st1 msg heq]

/-- Splitting the chapter loop at a list split. -/
theorem runChapters_append (s : Settings) (env : Env) (ct : Option Nat) :
    ∀ (l₁ l₂ : List String) (i0 : Nat) (st : RunState),
    runChapters s env ct (l₁ ++ l₂) i0 st =
      (match runChapters s env ct l₁ i0 st with
       | (st', some e) => (st', some e)
       | (st', none) => runChapters s env ct l₂ (i0 + l₁.length) st') := by
  intro l₁
  induction l₁ with
  | nil =>
      intro l₂ i0 st
      simp [runChapters]
  | cons c rest ih =>
      intro l₂ i0 st
      have hsplit : (c :: rest) ++ l₂ = c :: (rest ++ l₂) := rfl
      rw [hsplit]
      cases hpc : processChapter s env ct i0 c st with
      | err st1 msg =>
          rw [runChapters_cons_err s env ct c (rest ++ l₂) i0 st st1 msg hpc,
              runChapters_cons_err s env ct c rest i0 st st1 msg hpc]
      | ok st1 =>
          rw [runChapters_cons_ok s env ct c (rest ++ l₂) i0 st st1 hpc,
              runChapters_cons_ok s env ct c rest i0 st st1 hpc,
              ih l₂ (i0 + 1) st1]
          have harith : i0 + 1 + rest.length = i0 + (c :: rest).length := by
            simp only [List.length_cons]
            omega
          rw [harith]

/-- A no-cancel run over chapters whose writes all succeed completes,
drafting every chapter in order and appending the written contents in
order. -/
theorem runChapters_none_ok (s : Settings) (env : Env)
    (content : Nat → String) (wtok : Nat → Nat) :
    ∀ (chs : List String) (i0 : Nat) (st : RunState),
    (∀ k, k < chs.length → env.write (i0 + k) = .ok (content (i0 + k), wtok (i0 + k))) →
    ∃ st', runChapters s env none chs i0 st = (st', none) ∧
      st'.sections = st.sections ++ (List.range chs.length).map (fun k => content (i0 + k)) ∧
      writesOf st'.trace = writesOf st.trace ++ chs := by
  intro chs
  induction chs with
  | nil =>
      intro i0 st _
      exact ⟨st, rfl, by simp, by simp⟩
  | cons c rest ih =>
      intro i0 st hw
      have hw0 : env.write i0 = .ok (content i0, wtok i0) := by
        have := hw 0 (by simp)
        simpa using this
      obtain ⟨st1, fnd, prm, heq, hsec, hwr, _, _⟩ :=
        processChapter_none_ok s env i0 c st (content i0, wtok i0) hw0
      obtain ⟨st2, heq2, hsec2, hwr2⟩ := ih (i0 + 1) st1 (by
        intro k hk
        have := hw (k + 1) (by simp only [List.length_cons]; omega)
        have harith : i0 + (k + 1) = i0 + 1 + k := by omega
        rwa [harith] at this)
      refine ⟨st2, ?_, ?_, ?_⟩
      · rw [runChapters_cons_ok s env none c rest i0 st st1 heq]
        exact heq2
      · rw [hsec2, hsec]
        have hmap : (List.range (rest.length + 1)).map (fun k => content (i0 + k))
            = content i0 :: (List.range rest.length).map (fun k => content (i0 + 1 + k)) := by
          rw [List.range_succ_eq_map]
          simp only [List.map_cons, List.map_map, Nat.add_zero]
          refine congrArg _ ?_
          refine List.map_congr_left ?_
          intro a _
          simp only [Function.comp_apply]
          refine congrArg content ?_
          omega
        simp only [List.length_cons, hmap]
        simp
      · rw [hwr2, hwr]
        simp

/-- Claim C3: with no cancellation and all chapter writes succeeding, the
chapter writer is invoked exactly once per chapter, in list order, and
the completion payload's report is the `"# title"` heading followed by
the chapter contents joined with blank lines — nothing else. -/
theorem chapter_writer_in_order_and_report
    (s : Settings) (env : Env) (title : String) (chapters : List String)
    (content : Nat → String) (wtok : Nat → Nat)
    (hkey : s.apiKey ≠ "")
    (hw : ∀ k, k < chapters.length → env.write k = .ok (content k, wtok k)) :
    ∃ st r, executeResearch s env title chapters none = (st, .ok r) ∧
      writesOf st.trace = chapters ∧
      r.title = title ∧
      r.report = assembleReport title ((List.range chapters.length).map content) := by
  obtain ⟨st, heq, hsec, hwr⟩ := runChapters_none_ok s env content wtok chapters 0 initState
    (by intro k hk; simpa using hw k hk)
  have hrun : executeResearch s env title chapters none
      = (st, .ok ⟨title, assembleReport title st.sections, st.reg.globalSources,
                  st.searchCount, st.totalTokens,
                  countNonWs (assembleReport title st.sections)⟩) := by
    unfold executeResearch
    rw [if_neg hkey, heq]
  refine ⟨st, _, hrun, ?_, rfl, ?_⟩
  · rw [hwr]
    rfl
  · show assembleReport title st.sections = _
    rw [hsec]
    show assembleReport title ([] ++ (List.range chapters.length).map fun k => content (0 + k)) = _
    simp [Nat.zero_add]

/-- Concrete instantiation of C3: four chapters `A B C D` under title
`T`, every chapter drafted as `"content"`. -/
theorem chapter_writer_in_order_and_report_w :
    ∃ st r, executeResearch wSettings wEnv "T" ["A", "B", "C", "D"] none = (st, .ok r) ∧
      writesOf st.trace = ["A", "B", "C", "D"] ∧
      r.title = "T" ∧
      r.report = "# T\n\ncontent\n\ncontent\n\ncontent\n\ncontent" := by
  obtain ⟨st, r, h1, h2, h3, h4⟩ := chapter_writer_in_order_and_report wSettings wEnv "T"
    ["A", "B", "C", "D"] (fun _ => "content") (fun _ => 3)
    (by decide) (fun k _ => rfl)
  exact ⟨st, r, h1, h2, h3, by rw [h4]; rfl⟩

/-- Claim C2: if the cancellation flag is first observed at the check
point right after chapter `k`'s processing (i.e. chapter `k+1`'s
loop-entry check), the run unwinds with the cancellation error; the
entire final state — writer invocations, citation registry, sections —
equals the state of a run over chapters `0..k` only, so no later chapter
is drafted and no sources from chapter `k+1`'s queries are registered. -/
theorem cancellation_unwinds_before_next_chapter
    (s : Settings) (env : Env) (title : String) (chapters : List String) (k : Nat)
    (content : Nat → String) (wtok : Nat → Nat)
    (hkey : s.apiKey ≠ "")
    (hk : k + 1 < chapters.length)
    (hw : ∀ i, i ≤ k → env.write i = .ok (content i, wtok i)) :
    ∃ stPre,
      runChapters s env none (chapters.take (k + 1)) 0 initState = (stPre, none) ∧
      executeResearch s env title chapters (some stPre.checks) = (stPre, .error cancelMsg) ∧
      writesOf stPre.trace = chapters.take (k + 1) := by
  have hlen : (chapters.take (k + 1)).length = k + 1 := by
    rw [List.length_take]
    omega
  obtain ⟨stPre, heqPre, hsec, hwr⟩ :=
    runChapters_none_ok s env content wtok (chapters.take (k + 1)) 0 initState (by
      intro j hj
      rw [hlen] at hj
      simpa using hw j (by omega))
  refine ⟨stPre, heqPre, ?_, ?_⟩
  · have hpre : runChapters s env (some stPre.checks) (chapters.take (k + 1)) 0 initState
        = (stPre, none) := by
      rw [runChapters_some_eq stPre.checks s env (chapters.take (k + 1)) 0 initState
        (by rw [heqPre])]
      exact heqPre
    have hd : chapters.drop (k + 1)
        = chapters.get ⟨k + 1, hk⟩ :: chapters.drop (k + 2) := by
      rw [List.drop_eq_getElem_cons hk]
      rfl
    have hfail : processChapter s env (some stPre.checks)
        (0 + (chapters.take (k + 1)).length) (chapters.get ⟨k + 1, hk⟩) stPre
        = .err stPre cancelMsg := by
      unfold processChapter
      rw [show doCheck (some stPre.checks) stPre = .err stPre cancelMsg from by
        unfold doCheck
        dsimp only
        rw [if_pos (Nat.le_refl _)]]
    have hall : runChapters s env (some stPre.checks) chapters 0 initState
        = (stPre, some cancelMsg) := by
      conv_lhs => rw [(List.take_append_drop (k + 1) chapters).symm]
      rw [runChapters_append s env (some stPre.checks) (chapters.take (k + 1))
          (chapters.drop (k + 1)) 0 initState, hpre]
      dsimp only
      rw [hd, runChapters_cons_err s env (some stPre.checks) (chapters.get ⟨k + 1, hk⟩)
          (chapters.drop (k + 2)) (0 + (chapters.take (k + 1)).length) stPre stPre
          cancelMsg hfail]
    unfold executeResearch
    rw [if_neg hkey, hall]
  · rw [hwr]
    rfl

/-- Concrete instantiation of C2: chapters `A, B`, flag observed at the
check entering chapter `B` — the writer ran only for `A`. -/
theorem cancellation_unwinds_before_next_chapter_w :
    ∃ stPre,
      runChapters wSettings wEnv none (["A", "B"].take 1) 0 initState = (stPre, none) ∧
      executeResearch wSettings wEnv "T" ["A", "B"] (some stPre.checks)
        = (stPre, .error cancelMsg) ∧
      writesOf stPre.trace = ["A", "B"].take 1 :=
  cancellation_unwinds_before_next_chapter wSettings wEnv "T" ["A", "B"] 0
    (fun _ => "content") (fun _ => 3) (by decide) (by decide) (fun _ _ => rfl)

/-- Claim C6: whenever a run completes, the emitted `wordCount` is the
number of non-whitespace characters of the emitted full report, which is
itself the assembly of the title heading and the accumulated sections. -/
theorem completion_wordCount (s : Settings) (env : Env) (title : String)
    (chapters : List String) (ct : Option Nat) (st : RunState) (r : ResultPayload)
    (h : executeResearch s env title chapters ct = (st, .ok r)) :
    r.wordCount = countNonWs r.report ∧ r.report = assembleReport title st.sections := by
  unfold executeResearch at h
  by_cases hk : s.apiKey = ""
  · rw [if_pos hk] at h
    have h2 := congrArg Prod.snd h
    simp at h2
  · rw [if_neg hk] at h
    split at h
    · next st2 e heq =>
        have h2 := congrArg Prod.snd h
        simp at h2
    · next st2 heq =>
        dsimp only at h
        injection h with hst hsnd
        injection hsnd with hpayload
        subst hst
        rw [← hpayload]
        exact ⟨rfl, rfl⟩

/-- Concrete instantiation of C6: the one-chapter fixture run's payload
satisfies the word-count equation. -/
theorem completion_wordCount_w :
    (executeResearch wSettings wEnv "T" ["A"] none).2 = Except.ok wResult ∧
    wResult.wordCount = countNonWs wResult.report := by
  have hpair : executeResearch wSettings wEnv "T" ["A"] none
      = ((executeResearch wSettings wEnv "T" ["A"] none).1, Except.ok wResult) := by
    have h2 : (executeResearch wSettings wEnv "T" ["A"] none).2 = Except.ok wResult := by
      rfl
    exact Prod.ext rfl h2
  refine ⟨rfl, ?_⟩
  exact (completion_wordCount wSettings wEnv "T" ["A"] none
    (executeResearch wSettings wEnv "T" ["A"] none).1 wResult hpair).1

/-- Claim C7: the search strategy order — the managed search API when a
search key is configured and the provider is not the native one; else the
provider-native grounded search when the provider is the native one; else
the LLM-knowledge fallback, whose successful result carries exactly the
one synthetic internal-knowledge source. -/
theorem search_strategy_order (s : Settings) (env : Env) (i j : Nat) (txt : String) :
    (s.tavilyApiKey ≠ "" → s.provider ≠ "google" → strategyOf s = .tavily) ∧
    (s.provider = "google" → strategyOf s = .native) ∧
    (s.tavilyApiKey = "" → s.provider ≠ "google" → strategyOf s = .fallback) ∧
    (strategyOf s = .fallback → env.fallbackGen i j = .ok txt →
        (searchModel s env i j).1 = ⟨txt, [fallbackSource]⟩) := by
  refine ⟨?_, ?_, ?_, ?_⟩
  · intro hkey hp
    unfold strategyOf
    rw [if_pos ⟨hp, hkey⟩]
  · intro hp
    unfold strategyOf
    rw [if_neg (fun hc => hc.1 hp)]
    rw [if_pos ⟨hp, by unfold googleAIReady; rw [hp]; rfl⟩]
  · intro ht hp
    unfold strategyOf
    rw [if_neg (fun hc => hc.2 ht)]
    rw [if_neg (fun hc => hp hc.1)]
  · intro hstrat hok
    unfold searchModel
    rw [hstrat]
    dsimp only
    rw [hok]
    rfl

/-- Concrete instantiation of C7: key + non-native provider selects the
managed API; native provider selects grounded search; no key on a
non-native provider selects the fallback, whose success is the single
synthetic source. -/
theorem search_strategy_order_w :
    strategyOf ⟨"openai", "k", "u", "m", "tav"⟩ = .tavily ∧
    strategyOf ⟨"google", "k", "u", "m", "tav"⟩ = .native ∧
    strategyOf wSettings = .fallback ∧
    (searchModel wSettings wEnv 0 0).1 = ⟨"text", [fallbackSource]⟩ := by
  refine ⟨?_, ?_, ?_, ?_⟩
  · exact (search_strategy_order ⟨"openai", "k", "u", "m", "tav"⟩ wEnv 0 0 "text").1
      (by decide) (by decide)
  · exact (search_strategy_order ⟨"google", "k", "u", "m", "tav"⟩ wEnv 0 0 "text").2.1 rfl
  · exact (search_strategy_order wSettings wEnv 0 0 "text").2.2.1 rfl (by decide)
  · exact (search_strategy_order wSettings wEnv 0 0 "text").2.2.2
      ((search_strategy_order wSettings wEnv 0 0 "text").2.2.1 rfl (by decide)) rfl

/-! ## Generic step analysis and invariant preservation -/

theorem doCheck_err_state (ct : Option Nat) (st st1 : RunState) (msg : String)
    (h : doCheck ct st = .err st1 msg) : st1 = st ∧ msg = cancelMsg := by
  cases ct with
  | none => exact absurd h (by simp [doCheck])
  | some t =>
      unfold doCheck at h
      dsimp only at h
      by_cases ht : t ≤ st.checks
      · rw [if_pos ht] at h
        injection h with h1 h2
        exact ⟨h1.symm, h2.symm⟩
      · rw [if_neg ht] at h
        exact absurd h (by simp)

theorem doCheck_ok_state (ct : Option Nat) (st st1 : RunState)
    (h : doCheck ct st = .ok st1) : st1 = { st with checks := st.checks + 1 } := by
  cases ct with
  | none =>
      injection h with h1
      exact h1.symm
  | some t =>
      unfold doCheck at h
      dsimp only at h
      by_cases ht : t ≤ st.checks
      · rw [if_pos ht] at h
        exact absurd h (by simp)
      · rw [if_neg ht] at h
        injection h with h1
        exact h1.symm

/-- A query step either fails the cancellation check (state unchanged) or
produces exactly the source's state update: one more check, the
conditional search-counter bump, the registration-fold registry, and two
appended trace events. -/
theorem processQuery_out (s : Settings) (env : Env) (ct : Option Nat) (i j : Nat)
    (st : RunState) (f p : List String) :
    processQuery s env ct i j st f p = .err st cancelMsg ∨
    (∃ f2 p2, processQuery s env ct i j st f p
        = .ok ({ st with
                 checks := st.checks + 1,
                 searchCount := st.searchCount + (if (searchModel s env i j).2 then 1 else 0),
                 reg := (registerFold (searchModel s env i j).1.sources st.reg p).1,
                 trace := ((st.trace ++ [Ev.searchCall i j])
                   ++ [Ev.found (registerFold (searchModel s env i j).1.sources st.reg p).2.1]) },
               f2, p2)) := by
  cases hdc : doCheck ct st with
  | err st1 msg =>
      left
      obtain ⟨h1, h2⟩ := doCheck_err_state ct st st1 msg hdc
      unfold processQuery
      rw [hdc, h1, h2]
  | ok st1 =>
      right
      have h1 : st1 = { st with checks := st.checks + 1 } := doCheck_ok_state ct st st1 hdc
      subst h1
      refine ⟨(if (searchModel s env i j).1.summary ≠ ""
               then f ++ [findingText (searchModel s env i j).1.summary
                 (registerFold (searchModel s env i j).1.sources st.reg p).2.1]
               else f),
              (registerFold (searchModel s env i j).1.sources st.reg p).2.2, ?_⟩
      unfold processQuery
      rw [hdc]

/-- One-step invariant preservation for a query step, for any predicate
insensitive to the checks/tokens/sections/findings-cache fields (`hmod`)
and preserved by the search/registration update (`hq`). -/
theorem processQuery_preserves (s : Settings) (env : Env) (ct : Option Nat)
    (P : RunState → Prop)
    (_hmod : ∀ st st', st'.reg = st.reg → st'.searchCount = st.searchCount →
        st'.trace = st.trace → P st → P st')
    (hq : ∀ i j st p, P st →
        P { st with
             checks := st.checks + 1,
             searchCount := st.searchCount + (if (searchModel s env i j).2 then 1 else 0),
             reg := (registerFold (searchModel s env i j).1.sources st.reg p).1,
             trace := ((st.trace ++ [Ev.searchCall i j])
               ++ [Ev.found (registerFold (searchModel s env i j).1.sources st.reg p).2.1]) })
    (i j : Nat) (st : RunState) (f p : List String) (hP : P st) :
    (∀ st' f' p', processQuery s env ct i j st f p = .ok (st', f', p') → P st') ∧
    (∀ st' msg, processQuery s env ct i j st f p = .err st' msg → P st') := by
  rcases processQuery_out s env ct i j st f p with heq | ⟨f2, p2, heq⟩
  · constructor
    · intro st' f' p' h2
      rw [heq] at h2
      exact absurd h2 (by simp)
    · intro st' msg h2
      rw [heq] at h2
      injection h2 with h3 h4
      rw [← h3]
      exact hP
  · constructor
    · intro st' f' p' h2
      rw [heq] at h2
      injection h2 with h3
      have h4 := congrArg (fun x => x.1) h3
      dsimp only at h4
      rw [← h4]
      exact hq i j st p hP
    · intro st' msg h2
      rw [heq] at h2
      exact absurd h2 (by simp)

theorem processQueries_preserves (s : Settings) (env : Env) (ct : Option Nat)
    (P : RunState → Prop)
    (hmod : ∀ st st', st'.reg = st.reg → st'.searchCount = st.searchCount →
        st'.trace = st.trace → P st → P st')
    (hq : ∀ i j st p, P st →
        P { st with
             checks := st.checks + 1,
             searchCount := st.searchCount + (if (searchModel s env i j).2 then 1 else 0),
             reg := (registerFold (searchModel s env i j).1.sources st.reg p).1,
             trace := ((st.trace ++ [Ev.searchCall i j])
               ++ [Ev.found (registerFold (searchModel s env i j).1.sources st.reg p).2.1]) })
    (i : Nat) :
    ∀ (qs : List String) (j : Nat) (st : RunState) (f p : List String), P st →
    (∀ st' f' p', processQueries s env ct i qs j st f p = .ok (st', f', p') → P st') ∧
    (∀ st' msg, processQueries s env ct i qs j st f p = .err st' msg → P st') := by
  intro qs
  induction qs with
  | nil =>
      intro j st f p hP
      constructor
      · intro st' f' p' h2
        injection h2 with h3
        have h4 := congrArg (fun x => x.1) h3
        dsimp only at h4
        rw [← h4]
        exact hP
      · intro st' msg h2
        exact absurd h2 (by simp [processQueries])
  | cons q rest ih =>
      intro j st f p hP
      have hstep := processQuery_preserves s env ct P hmod hq i j st f p hP
      constructor
      · intro st' f' p' h2
        unfold processQueries at h2
        cases hpq : processQuery s env ct i j st f p with
        | err st1 msg =>
            rw [hpq] at h2
            exact absurd h2 (by simp)
        | ok x =>
            rw [hpq] at h2
            dsimp only at h2
            have hP1 : P x.1 := hstep.1 x.1 x.2.1 x.2.2 (by rw [hpq])
            exact (ih (j + 1) x.1 x.2.1 x.2.2 hP1).1 st' f' p' h2
      · intro st' msg h2
        unfold processQueries at h2
        cases hpq : processQuery s env ct i j st f p with
        | err st1 msg1 =>
            rw [hpq] at h2
            injection h2 with h3 h4
            rw [← h3]
            exact hstep.2 st1 msg1 hpq
        | ok x =>
            rw [hpq] at h2
            dsimp only at h2
            have hP1 : P x.1 := hstep.1 x.1 x.2.1 x.2.2 (by rw [hpq])
            exact (ih (j + 1) x.1 x.2.1 x.2.2 hP1).2 st' msg h2

theorem processChapter_preserves (s : Settings) (env : Env) (ct : Option Nat)
    (P : RunState → Prop)
    (hmod : ∀ st st', st'.reg = st.reg → st'.searchCount = st.searchCount →
        st'.trace = st.trace → P st → P st')
    (hq : ∀ i j st p, P st →
        P { st with
             checks := st.checks + 1,
             searchCount := st.searchCount + (if (searchModel s env i j).2 then 1 else 0),
             reg := (registerFold (searchModel s env i j).1.sources st.reg p).1,
             trace := ((st.trace ++ [Ev.searchCall i j])
               ++ [Ev.found (registerFold (searchModel s env i j).1.sources st.reg p).2.1]) })
    (hwev : ∀ st c fnd prm, P st →
        P { st with trace := st.trace ++ [Ev.write c fnd prm] })
    (i : Nat) (c : String) (st : RunState) (hP : P st) :
    (∀ st', processChapter s env ct i c st = .ok st' → P st') ∧
    (∀ st' msg, processChapter s env ct i c st = .err st' msg → P st') := by
  cases hdc : doCheck ct st with
  | err st1 msg1 =>
      obtain ⟨h1, h2⟩ := doCheck_err_state ct st st1 msg1 hdc
      constructor
      · intro st' h3
        unfold processChapter at h3
        rw [hdc] at h3
        exact absurd h3 (by simp)
      · intro st' msg h3
        unfold processChapter at h3
        rw [hdc] at h3
        injection h3 with h4 h5
        rw [← h4, h1]
        exact hP
  | ok st1 =>
      have h1 : st1 = { st with checks := st.checks + 1 } := doCheck_ok_state ct st st1 hdc
      have hP1 : P st1 := by
        rw [h1]
        exact hmod st _ rfl rfl rfl hP
      have hP2 : P { st1 with totalTokens := st1.totalTokens + (env.queries i).2 } :=
        hmod st1 _ rfl rfl rfl hP1
      have hqs := processQueries_preserves s env ct P hmod hq i (env.queries i).1 0
        { st1 with totalTokens := st1.totalTokens + (env.queries i).2 } [] [] hP2
      constructor
      · intro st' h3
        unfold processChapter at h3
        rw [hdc] at h3
        dsimp only at h3
        cases hpq : processQueries s env ct i (env.queries i).1 0
            { st1 with totalTokens := st1.totalTokens + (env.queries i).2 } [] [] with
        | err st3 msg3 =>
            rw [hpq] at h3
            exact absurd h3 (by simp)
        | ok x =>
            rw [hpq] at h3
            dsimp only at h3
            have hP3 : P x.1 := hqs.1 x.1 x.2.1 x.2.2 (by rw [hpq])
            have hP4 : P { x.1 with
                findingsCache := x.1.findingsCache
                  ++ [(String.intercalate "\n" x.2.1).take 1000],
                trace := x.1.trace ++ [Ev.write c x.2.1 x.2.2] } := by
              exact hmod { x.1 with trace := x.1.trace ++ [Ev.write c x.2.1 x.2.2] } _
                rfl rfl rfl (hwev x.1 c x.2.1 x.2.2 hP3)
            cases hwi : env.write i with
            | error e =>
                rw [hwi] at h3
                exact absurd h3 (by simp)
            | ok cw =>
                rw [hwi] at h3
                injection h3 with h4
                rw [← h4]
                exact hmod { x.1 with
                    findingsCache := x.1.findingsCache
                      ++ [(String.intercalate "\n" x.2.1).take 1000],
                    trace := x.1.trace ++ [Ev.write c x.2.1 x.2.2] } _
                  rfl rfl rfl hP4
      · intro st' msg h3
        unfold processChapter at h3
        rw [hdc] at h3
        dsimp only at h3
        cases hpq : processQueries s env ct i (env.queries i).1 0
            { st1 with totalTokens := st1.totalTokens + (env.queries i).2 } [] [] with
        | err st3 msg3 =>
            rw [hpq] at h3
            injection h3 with h4 h5
            rw [← h4]
            exact hqs.2 st3 msg3 hpq
        | ok x =>
            rw [hpq] at h3
            dsimp only at h3
            have hP3 : P x.1 := hqs.1 x.1 x.2.1 x.2.2 (by rw [hpq])
            have hP4 : P { x.1 with
                findingsCache := x.1.findingsCache
                  ++ [(String.intercalate "\n" x.2.1).take 1000],
                trace := x.1.trace ++ [Ev.write c x.2.1 x.2.2] } := by
              exact hmod { x.1 with trace := x.1.trace ++ [Ev.write c x.2.1 x.2.2] } _
                rfl rfl rfl (hwev x.1 c x.2.1 x.2.2 hP3)
            cases hwi : env.write i with
            | error e =>
                rw [hwi] at h3
                injection h3 with h4 h5
                rw [← h4]
                exact hP4
            | ok cw =>
                rw [hwi] at h3
                exact absurd h3 (by simp)

theorem runChapters_preserves (s : Settings) (env : Env) (ct : Option Nat)
    (P : RunState → Prop)
    (hmod : ∀ st st', st'.reg = st.reg → st'.searchCount = st.searchCount →
        st'.trace = st.trace → P st → P st')
    (hq : ∀ i j st p, P st →
        P { st with
             checks := st.checks + 1,
             searchCount := st.searchCount + (if (searchModel s env i j).2 then 1 else 0),
             reg := (registerFold (searchModel s env i j).1.sources st.reg p).1,
             trace := ((st.trace ++ [Ev.searchCall i j])
               ++ [Ev.found (registerFold (searchModel s env i j).1.sources st.reg p).2.1]) })
    (hwev : ∀ st c fnd prm, P st →
        P { st with trace := st.trace ++ [Ev.write c fnd prm] }) :
    ∀ (chs : List String) (i0 : Nat) (st : RunState), P st →
    P (runChapters s env ct chs i0 st).1 := by
  intro chs
  induction chs with
  | nil => intro i0 st hP; exact hP
  | cons c rest ih =>
      intro i0 st hP
      have hpc := processChapter_preserves s env ct P hmod hq hwev i0 c st hP
      cases heq : processChapter s env ct i0 c st with
      | err st1 msg =>
          rw [runChapters_cons_err s env ct c rest i0 st st1 msg heq]
          exact hpc.2 st1 msg heq
      | ok st1 =>
          rw [runChapters_cons_ok s env ct c rest i0 st st1 heq]
          exact ih (i0 + 1) st1 (hpc.1 st1 heq)

theorem executeResearch_preserves (s : Settings) (env : Env) (title : String)
    (chapters : List String) (ct : Option Nat)
    (P : RunState → Prop)
    (hmod : ∀ st st', st'.reg = st.reg → st'.searchCount = st.searchCount →
        st'.trace = st.trace → P st → P st')
    (hq : ∀ i j st p, P st →
        P { st with
             checks := st.checks + 1,
             searchCount := st.searchCount + (if (searchModel s env i j).2 then 1 else 0),
             reg := (registerFold (searchModel s env i j).1.sources st.reg p).1,
             trace := ((st.trace ++ [Ev.searchCall i j])
               ++ [Ev.found (registerFold (searchModel s env i j).1.sources st.reg p).2.1]) })
    (hwev : ∀ st c fnd prm, P st →
        P { st with trace := st.trace ++ [Ev.write c fnd prm] })
    (hinit : P initState) :
    P (executeResearch s env title chapters ct).1 := by
  unfold executeResearch
  by_cases hk : s.apiKey = ""
  · rw [if_pos hk]
    exact hinit
  · rw [if_neg hk]
    have := runChapters_preserves s env ct P hmod hq hwev chapters 0 initState hinit
    cases heq : runChapters s env ct chapters 0 initState with
    | mk st' oe =>
        rw [heq] at this
        cases oe with
        | some e => exact this
        | none => exact this

/-! ## Empty search results still draft the chapter (claim C5) -/

/-- A query whose search degraded to the empty result registers nothing
and appends no finding: the findings and prompt-source lists pass through
unchanged. -/
theorem processQuery_empty (s : Settings) (env : Env) (i j : Nat)
    (st : RunState) (f p : List String)
    (hempty : (searchModel s env i j).1 = emptySearchRes) :
    processQuery s env none i j st f p
      = .ok ({ st with
          checks := st.checks + 1,
          searchCount := st.searchCount + (if (searchModel s env i j).2 then 1 else 0),
          trace := ((st.trace ++ [Ev.searchCall i j]) ++ [Ev.found []]) }, f, p) := by
  unfold processQuery
  rw [show doCheck none st = .ok { st with checks := st.checks + 1 } from rfl]
  dsimp only
  rw [hempty]
  dsimp only [emptySearchRes, registerFold]
  rw [if_neg (by decide : ¬(("" : String) ≠ ""))]

/-- The query loop of a chapter whose searches all degrade to the empty
result succeeds with findings and prompt sources unchanged, and with
neither registry growth nor new write events. -/
theorem processQueries_empty (s : Settings) (env : Env) (i : Nat)
    (hempty : ∀ j, (searchModel s env i j).1 = emptySearchRes) :
    ∀ (qs : List String) (j : Nat) (st : RunState) (f p : List String),
    ∃ st', processQueries s env none i qs j st f p = .ok (st', f, p) ∧
      writeEventsOf st'.trace = writeEventsOf st.trace := by
  intro qs
  induction qs with
  | nil => intro j st f p; exact ⟨st, rfl, rfl⟩
  | cons q rest ih =>
      intro j st f p
      obtain ⟨st2, heq2, hwe2⟩ := ih (j + 1)
        { st with
          checks := st.checks + 1,
          searchCount := st.searchCount + (if (searchModel s env i j).2 then 1 else 0),
          trace := ((st.trace ++ [Ev.searchCall i j]) ++ [Ev.found []]) } f p
      refine ⟨st2, ?_, ?_⟩
      · unfold processQueries
        rw [processQuery_empty s env i j st f p (hempty j)]
        exact heq2
      · rw [hwe2]
        simp only [RunState.trace, writeEventsOf_append, writeEventsOf, List.append_nil]

/-- A chapter whose searches all degrade to the empty result is still
drafted: the writer is invoked with empty findings and an empty
prompt-source list, and the chapter content is appended. -/
theorem processChapter_empty_writes (s : Settings) (env : Env) (i : Nat) (c : String)
    (st : RunState) (cw : String × Nat)
    (hw : env.write i = .ok cw)
    (hempty : ∀ j, (searchModel s env i j).1 = emptySearchRes) :
    ∃ st', processChapter s env none i c st = .ok st' ∧
      writeEventsOf st'.trace = writeEventsOf st.trace ++ [(c, [], [])] := by
  obtain ⟨st3, heq3, hwe3⟩ := processQueries_empty s env i hempty (env.queries i).1 0
    { st with totalTokens := st.totalTokens + (env.queries i).2,
              checks := st.checks + 1 } [] []
  refine ⟨{ st3 with
      findingsCache := st3.findingsCache ++ [(String.intercalate "\n" []).take 1000],
      trace := st3.trace ++ [Ev.write c [] []],
      totalTokens := st3.totalTokens + cw.2,
      sections := st3.sections ++ [cw.1] }, ?_, ?_⟩
  · unfold processChapter
    rw [show doCheck none st = .ok { st with checks := st.checks + 1 } from rfl]
    dsimp only
    rw [heq3]
    dsimp only
    rw [hw]
  · simp only [RunState.trace, writeEventsOf_append, writeEventsOf]
    rw [hwe3]

/-- Claim C5: a failed search degrades to `{summary:"", sources:[]}`
(non-2xx and thrown-error cases), and a chapter all of whose searches
degraded that way is still drafted — the writer runs with empty findings
and the run proceeds through every chapter to completion. -/
theorem failed_search_never_aborts
    (s : Settings) (env : Env) (title : String) (chapters : List String)
    (content : Nat → String) (wtok : Nat → Nat) (i : Nat)
    (hkey : s.apiKey ≠ "")
    (hw : ∀ k, k < chapters.length → env.write k = .ok (content k, wtok k))
    (hi : i < chapters.length)
    (hempty : ∀ j, (searchModel s env i j).1 = emptySearchRes) :
    searchTavilyRes .httpErr = emptySearchRes ∧
    searchTavilyRes .netErr = emptySearchRes ∧
    ∃ st r, executeResearch s env title chapters none = (st, .ok r) ∧
      (writeEventsOf st.trace)[i]? = some (chapters.get ⟨i, hi⟩, [], []) ∧
      writesOf st.trace = chapters := by
  refine ⟨rfl, rfl, ?_⟩
  have hlenT : (chapters.take i).length = i := by
    rw [List.length_take]
    omega
  obtain ⟨stA, heqA, hsecA, hwrA⟩ := runChapters_none_ok s env content wtok
    (chapters.take i) 0 initState (by
      intro k hk
      rw [hlenT] at hk
      simpa using hw k (by omega))
  obtain ⟨stB, heqB, hweB⟩ := processChapter_empty_writes s env i
    (chapters.get ⟨i, hi⟩) stA (content i, wtok i) (hw i hi) hempty
  obtain ⟨stC, heqC, hsecC, hwrC⟩ := runChapters_none_ok s env content wtok
    (chapters.drop (i + 1)) (i + 1) stB (by
      intro k hk
      rw [List.length_drop] at hk
      exact hw (i + 1 + k) (by omega))
  have hd : chapters.drop i = chapters.get ⟨i, hi⟩ :: chapters.drop (i + 1) := by
    rw [List.drop_eq_getElem_cons hi]
    rfl
  have hcomp : runChapters s env none chapters 0 initState = (stC, none) := by
    conv_lhs => rw [(List.take_append_drop i chapters).symm]
    rw [runChapters_append s env none (chapters.take i) (chapters.drop i) 0 initState,
        heqA]
    dsimp only
    rw [show 0 + (chapters.take i).length = i from by rw [Nat.zero_add, hlenT], hd,
        runChapters_cons_ok s env none (chapters.get ⟨i, hi⟩) (chapters.drop (i + 1))
          i stA stB heqB]
    exact heqC
  have hPtr : ∃ tr, stC.trace = stB.trace ++ tr := by
    have hpres := runChapters_preserves s env none
      (fun st2 => ∃ tr, st2.trace = stB.trace ++ tr)
      (fun st st' h1 h2 h3 hP => by
        obtain ⟨tr, htr⟩ := hP
        exact ⟨tr, by rw [h3, htr]⟩)
      (fun i2 j2 st p hP => by
        obtain ⟨tr, htr⟩ := hP
        refine ⟨(tr ++ [Ev.searchCall i2 j2])
          ++ [Ev.found ((registerFold (searchModel s env i2 j2).1.sources st.reg p).2.1)], ?_⟩
        dsimp only
        rw [htr]
        simp [List.append_assoc])
      (fun st c2 fnd prm hP => by
        obtain ⟨tr, htr⟩ := hP
        refine ⟨tr ++ [Ev.write c2 fnd prm], ?_⟩
        dsimp only
        rw [htr]
        simp [List.append_assoc])
      (chapters.drop (i + 1)) (i + 1) stB ⟨[], by simp⟩
    rw [heqC] at hpres
    exact hpres
  obtain ⟨tr, htr⟩ := hPtr
  have hrun : executeResearch s env title chapters none
      = (stC, .ok ⟨title, assembleReport title stC.sections, stC.reg.globalSources,
                   stC.searchCount, stC.totalTokens,
                   countNonWs (assembleReport title stC.sections)⟩) := by
    unfold executeResearch
    rw [if_neg hkey, hcomp]
  have hwrA2 : writesOf stA.trace = chapters.take i := by
    rw [hwrA]
    rfl
  have hlenA : (writeEventsOf stA.trace).length = i := by
    have h2 := writesOf_eq_map_fst stA.trace
    rw [hwrA2] at h2
    have h3 := congrArg List.length h2
    rw [List.length_map] at h3
    rw [← h3, hlenT]
  refine ⟨stC, _, hrun, ?_, ?_⟩
  · rw [htr, writeEventsOf_append, hweB, List.append_assoc, List.singleton_append]
    rw [List.getElem?_append_right (by omega)]
    rw [hlenA]
    simp
  · rw [hwrC]
    have hwrB : writesOf stB.trace = chapters.take i ++ [chapters.get ⟨i, hi⟩] := by
      rw [writesOf_eq_map_fst, hweB, List.map_append, ← writesOf_eq_map_fst, hwrA2]
      rfl
    rw [hwrB, List.append_assoc, List.singleton_append, ← hd, List.take_append_drop]

/-- Concrete instantiation of C5: with every search degraded to the
empty result, chapters `A, B` both draft and the run completes; chapter
`A`'s writer call has empty findings and no prompt sources. -/
theorem failed_search_never_aborts_w :
    searchTavilyRes .httpErr = emptySearchRes ∧
    searchTavilyRes .netErr = emptySearchRes ∧
    ∃ st r, executeResearch wSettings wEnvEmpty "T" ["A", "B"] none = (st, .ok r) ∧
      (writeEventsOf st.trace)[0]? = some ("A", [], []) ∧
      writesOf st.trace = ["A", "B"] := by
  obtain ⟨h1, h2, st, r, h3, h4, h5⟩ := failed_search_never_aborts wSettings wEnvEmpty
    "T" ["A", "B"] (fun _ => "content") (fun _ => 3) 0
    (by decide) (fun k _ => rfl) (by decide) (fun j => rfl)
  exact ⟨h1, h2, st, r, h3, h4, h5⟩

/-- Claim C9: in an `openai`-provider run with no Tavily key, the search
strategy is the LLM-knowledge fallback; every successful search carries
exactly the synthetic internal-knowledge source, so across the whole run
the citation registry holds at most one entry and every citation index
bound to a finding is `1`. -/
theorem fallback_run_single_source
    (s : Settings) (env : Env) (title : String) (chapters : List String) (ct : Option Nat)
    (hp : s.provider = "openai") (ht : s.tavilyApiKey = "") :
    strategyOf s = .fallback ∧
    (∀ i j txt, env.fallbackGen i j = .ok txt →
        (searchModel s env i j).1.sources = [fallbackSource]) ∧
    (executeResearch s env title chapters ct).1.reg.globalSources.length ≤ 1 ∧
    (∀ l, l ∈ foundIndicesOf (executeResearch s env title chapters ct).1.trace →
        ∀ x, x ∈ l → x = 1) := by
  have hstrat : strategyOf s = .fallback := by
    unfold strategyOf
    rw [if_neg (fun hc => hc.2 ht)]
    rw [if_neg (fun hc => by rw [hp] at hc; exact absurd hc.1 (by decide))]
  have hsrc : ∀ i j, (searchModel s env i j).1.sources = []
      ∨ (searchModel s env i j).1.sources = [fallbackSource] := by
    intro i j
    unfold searchModel
    rw [hstrat]
    dsimp only
    cases env.fallbackGen i j with
    | error e => left; rfl
    | ok txt => right; rfl
  have hpres := executeResearch_preserves s env title chapters ct
      (fun st2 => (st2.reg = emptyReg ∨ st2.reg = regOneFallback) ∧
        (∀ l, l ∈ foundIndicesOf st2.trace → ∀ x, x ∈ l → x = 1))
      (fun st st' h1 h2 h3 hP => ⟨by rw [h1]; exact hP.1, by rw [h3]; exact hP.2⟩)
      (fun i j st p hP => by
        rcases hsrc i j with hs | hs
        · refine ⟨?_, ?_⟩
          · dsimp only
            rw [hs]
            exact hP.1
          · dsimp only
            rw [hs]
            intro l hl x hx
            rw [foundIndicesOf_append, foundIndicesOf_append] at hl
            simp only [foundIndicesOf, List.append_nil, List.mem_append,
              List.mem_singleton] at hl
            rcases hl with hl | hl
            · exact hP.2 l hl x hx
            · rw [hl] at hx
              exact absurd hx (by simp [registerFold])
        · rcases hP.1 with hreg | hreg
          · refine ⟨?_, ?_⟩
            · dsimp only
              rw [hs, hreg]
              right
              rfl
            · dsimp only
              rw [hs, hreg]
              intro l hl x hx
              rw [foundIndicesOf_append, foundIndicesOf_append] at hl
              simp only [foundIndicesOf, List.append_nil, List.mem_append,
                List.mem_singleton] at hl
              rcases hl with hl | hl
              · exact hP.2 l hl x hx
              · rw [hl] at hx
                have : x ∈ ([1] : List Nat) := hx
                simpa using this
          · refine ⟨?_, ?_⟩
            · dsimp only
              rw [hs, hreg]
              right
              rfl
            · dsimp only
              rw [hs, hreg]
              intro l hl x hx
              rw [foundIndicesOf_append, foundIndicesOf_append] at hl
              simp only [foundIndicesOf, List.append_nil, List.mem_append,
                List.mem_singleton] at hl
              rcases hl with hl | hl
              · exact hP.2 l hl x hx
              · rw [hl] at hx
                have : x ∈ ([1] : List Nat) := hx
                simpa using this)
      (fun st c fnd prm hP => ⟨hP.1, by
        dsimp only
        intro l hl x hx
        rw [foundIndicesOf_append] at hl
        simp only [foundIndicesOf, List.append_nil] at hl
        exact hP.2 l hl x hx⟩)
      ⟨Or.inl rfl, by
        intro l hl
        simp [initState, foundIndicesOf] at hl⟩
  refine ⟨hstrat, ?_, ?_, hpres.2⟩
  · intro i j txt hok
    unfold searchModel
    rw [hstrat]
    dsimp only
    rw [hok]
    rfl
  · rcases hpres.1 with hreg | hreg
    · rw [hreg]
      simp [emptyReg]
    · rw [hreg]
      simp [regOneFallback]

/-- Concrete instantiation of C9: the fixture `openai`-without-key run. -/
theorem fallback_run_single_source_w :
    strategyOf wSettings = .fallback ∧
    (∀ i j txt, wEnv.fallbackGen i j = .ok txt →
        (searchModel wSettings wEnv i j).1.sources = [fallbackSource]) ∧
    (executeResearch wSettings wEnv "T" ["A"] none).1.reg.globalSources.length ≤ 1 ∧
    (∀ l, l ∈ foundIndicesOf (executeResearch wSettings wEnv "T" ["A"] none).1.trace →
        ∀ x, x ∈ l → x = 1) :=
  fallback_run_single_source wSettings wEnv "T" ["A"] none rfl rfl

/-- Claim C10: the search counter is zero at run start and is bumped
exactly by the managed-search-API (Tavily) calls, so the final state's
counter — which the completion event reports as `totalSearchQueries` —
counts the search calls when the Tavily strategy is active and is `0`
for a native-search or fallback run no matter how many searches ran. -/
theorem totalSearchQueries_counts_tavily
    (s : Settings) (env : Env) (title : String) (chapters : List String) (ct : Option Nat) :
    ((executeResearch s env title chapters ct).1.searchCount
        = if strategyOf s = .tavily
          then searchCallCount (executeResearch s env title chapters ct).1.trace else 0) ∧
    (∀ st r, executeResearch s env title chapters ct = (st, .ok r) →
        r.totalSearchQueries = st.searchCount) ∧
    (strategyOf s ≠ .tavily → (executeResearch s env title chapters ct).1.searchCount = 0) := by
  have hcnt : ∀ i j : Nat, (searchModel s env i j).2 = true ↔ strategyOf s = .tavily := by
    intro i j
    unfold searchModel
    cases hstrat : strategyOf s <;> dsimp only <;> simp
  have hP := executeResearch_preserves s env title chapters ct
    (fun st2 => st2.searchCount
        = if strategyOf s = .tavily then searchCallCount st2.trace else 0)
    (fun st st' h1 h2 h3 hP => by dsimp only at hP ⊢; rw [h2, h3]; exact hP)
    (fun i j st p hP => by
      dsimp only at hP ⊢
      rw [searchCallCount_append, searchCallCount_append]
      by_cases hstrat : strategyOf s = .tavily
      · rw [if_pos hstrat] at hP ⊢
        rw [(hcnt i j).mpr hstrat, if_pos rfl, hP]
        simp only [searchCallCount]
        try omega
      · rw [if_neg hstrat] at hP ⊢
        have hfalse : (searchModel s env i j).2 = false := by
          cases hb : (searchModel s env i j).2
          · rfl
          · exact absurd ((hcnt i j).mp hb) hstrat
        rw [hfalse]
        simpa using hP)
    (fun st c fnd prm hP => by
      dsimp only at hP ⊢
      rw [searchCallCount_append]
      by_cases hstrat : strategyOf s = .tavily
      · rw [if_pos hstrat] at hP ⊢
        rw [hP]
        simp [searchCallCount]
      · rw [if_neg hstrat] at hP ⊢
        exact hP)
    (by simp [initState, searchCallCount])
  dsimp only at hP
  refine ⟨hP, ?_, ?_⟩
  · intro st r h
    unfold executeResearch at h
    by_cases hk : s.apiKey = ""
    · rw [if_pos hk] at h
      have h2 := congrArg Prod.snd h
      simp at h2
    · rw [if_neg hk] at h
      split at h
      · next st2 e heq =>
          have h2 := congrArg Prod.snd h
          simp at h2
      · next st2 heq =>
          dsimp only at h
          injection h with hst hsnd
          injection hsnd with hpayload
          subst hst
          rw [← hpayload]
  · intro hne
    rw [if_neg hne] at hP
    exact hP

/-- Concrete instantiation of C10: the fixture fallback run performed a
search yet reports zero managed-search queries. -/
theorem totalSearchQueries_counts_tavily_w :
    (executeResearch wSettings wEnv "T" ["A"] none).1.searchCount = 0 ∧
    wResult.totalSearchQueries = (executeResearch wSettings wEnv "T" ["A"] none).1.searchCount := by
  have h := totalSearchQueries_counts_tavily wSettings wEnv "T" ["A"] none
  refine ⟨h.2.2 (by decide), ?_⟩
  exact h.2.1 (executeResearch wSettings wEnv "T" ["A"] none).1 wResult
    (Prod.ext rfl (by rfl))

/-! ## History round trip (claim C8) -/

theorem decodeSource_encodeSource (src : Source) :
    decodeSource (encodeSource src) = some src := by
  cases src
  rfl

theorem decodeSources_encode (l : List Source) :
    decodeSources (l.map encodeSource) = some l := by
  induction l with
  | nil => rfl
  | cons sHead rest ih =>
      show (match decodeSource (encodeSource sHead),
              decodeSources (rest.map encodeSource) with
            | some s2, some ss => some (s2 :: ss)
            | _, _ => none) = some (sHead :: rest)
      rw [decodeSource_encodeSource, ih]

theorem decodeResult_encodeResult (r : SavedResult) :
    decodeResult (encodeResult r) = some r := by
  obtain ⟨id, ts, title, report, sources, tq, tt, wc, logs⟩ := r
  rw [show decodeResult (encodeResult ⟨id, ts, title, report, sources, tq, tt, wc, logs⟩)
      = (decodeSources (sources.map encodeSource)).map
          (fun srcs => ⟨id, ts, title, report, srcs, tq, tt, wc, logs⟩) from rfl]
  rw [decodeSources_encode]
  rfl

theorem decodeResults_encode (l : List SavedResult) :
    decodeResults (l.map encodeResult) = some l := by
  induction l with
  | nil => rfl
  | cons rHead rest ih =>
      show (match decodeResult (encodeResult rHead),
              decodeResults (rest.map encodeResult) with
            | some r2, some rs => some (r2 :: rs)
            | _, _ => none) = some (rHead :: rest)
      rw [decodeResult_encodeResult, ih]

/-- Claim C8: saving a result to history (prepend most-recent-first,
cap at 50) and loading the history back through JSON
serialization/deserialization reproduces the saved list exactly; in
particular the loaded head is the saved result — same title, same full
report, same sources — and the list never exceeds 50 entries. -/
theorem history_save_load_roundtrip (r : SavedResult) (h : List SavedResult) :
    decodeHistory (encodeHistory (saveToHistory r h)) = some (saveToHistory r h) ∧
    (saveToHistory r h).head? = some r ∧
    (saveToHistory r h).length ≤ 50 := by
  refine ⟨?_, rfl, ?_⟩
  · show decodeResults ((saveToHistory r h).map encodeResult) = _
    rw [decodeResults_encode]
  · show ((r :: h).take 50).length ≤ 50
    rw [List.length_take]
    omega

end DeepResearch
